import Mathlib

/-!
Verification of the credential and token subsystem of the FastAPI
restaurant-review backend: password hashing (src/auth.py), bearer-token
issuance and decoding (src/auth.py, through the jose JWT library), the
flat-file user store (src/local_storage.py) and the route logic driving it
(src/main.py).

Python strings are modelled as lists of characters (`Str`).  The
cryptographic primitives living in external libraries (bcrypt key
derivation from passlib, HMAC-SHA256 and base64url from python-jose) are
modelled by executable stand-ins that keep exactly the properties the
surrounding code relies on: determinism, injectivity of the encodings,
total decodability, and an output alphabet free of the separator
characters.  Code of the repository itself is translated directly from
the source files.
-/

namespace FastApiApp

/-- Python strings modelled as lists of characters. -/
abbrev Str := List Char

/-- Hex digit character (lowercase) for a value below 16. -/
def hexDigit (n : Nat) : Char :=
  if n < 10 then Char.ofNat (48 + n) else Char.ofNat (87 + n)

/-- Value of a hex digit character; 16 marks a non-digit. -/
def hexVal (c : Char) : Nat :=
  if 48 ≤ c.toNat ∧ c.toNat ≤ 57 then c.toNat - 48
  else if 97 ≤ c.toNat ∧ c.toNat ≤ 102 then c.toNat - 87
  else 16

/-- Test for membership in the lowercase hex alphabet. -/
def isHexCh (c : Char) : Bool := decide (hexVal c < 16)

theorem hexVal_hexDigit : ∀ n, n < 16 → hexVal (hexDigit n) = n := by decide

theorem isHexCh_hexDigit : ∀ n, n < 16 → isHexCh (hexDigit n) = true := by decide

/-- Code points of characters are below 16^6, so six hex digits suffice. -/
theorem char_toNat_lt (c : Char) : c.toNat < 16777216 := by
  rcases c.valid with h | ⟨_, h2⟩
  · exact Nat.lt_trans h (by norm_num)
  · exact Nat.lt_trans h2 (by norm_num)

/-- Six-hex-digit rendering of one character's code point. -/
def encChar (c : Char) : Str :=
  [hexDigit (c.toNat / 1048576 % 16), hexDigit (c.toNat / 65536 % 16),
   hexDigit (c.toNat / 4096 % 16), hexDigit (c.toNat / 256 % 16),
   hexDigit (c.toNat / 16 % 16), hexDigit (c.toNat % 16)]

/-- Executable model of the base64url encoding of a string's utf-8 bytes, as
the jose library applies it to token segments: each character is rendered as
six lowercase hex digits of its code point.  The development relies only on
the properties this shares with real base64url-of-utf8: injectivity, total
decodability, and an output alphabet free of the `.` separator. -/
def b64url : Str → Str
  | [] => []
  | c :: rest => encChar c ++ b64url rest

/-- Decoder for `b64url`; fails on input not in the encoding's image shape. -/
def b64urlDec : Str → Option Str
  | [] => some []
  | a :: b :: c :: d :: e :: f :: rest =>
    if hexVal a < 16 ∧ hexVal b < 16 ∧ hexVal c < 16 ∧ hexVal d < 16 ∧
        hexVal e < 16 ∧ hexVal f < 16 then
      match b64urlDec rest with
      | some tail =>
        some (Char.ofNat (hexVal a * 1048576 + hexVal b * 65536 + hexVal c * 4096 +
          hexVal d * 256 + hexVal e * 16 + hexVal f) :: tail)
      | none => none
    else none
  | _ => none

theorem b64urlDec_encChar (c : Char) {t r : Str} (h : b64urlDec t = some r) :
    b64urlDec (encChar c ++ t) = some (c :: r) := by
  have hlt : c.toNat < 16777216 := char_toNat_lt c
  have h16 : ∀ m : Nat, m % 16 < 16 := fun m => Nat.mod_lt _ (by norm_num)
  have e1 := hexVal_hexDigit _ (h16 (c.toNat / 1048576))
  have e2 := hexVal_hexDigit _ (h16 (c.toNat / 65536))
  have e3 := hexVal_hexDigit _ (h16 (c.toNat / 4096))
  have e4 := hexVal_hexDigit _ (h16 (c.toNat / 256))
  have e5 := hexVal_hexDigit _ (h16 (c.toNat / 16))
  have e6 := hexVal_hexDigit _ (h16 c.toNat)
  simp only [encChar, List.cons_append, List.nil_append]
  simp only [b64urlDec]
  rw [e1, e2, e3, e4, e5, e6, if_pos]
  · rw [h]
    have hsum : c.toNat / 1048576 % 16 * 1048576 + c.toNat / 65536 % 16 * 65536 +
        c.toNat / 4096 % 16 * 4096 + c.toNat / 256 % 16 * 256 +
        c.toNat / 16 % 16 * 16 + c.toNat % 16 = c.toNat := by omega
    rw [hsum, Char.ofNat_toNat]
  · exact ⟨h16 _, h16 _, h16 _, h16 _, h16 _, h16 _⟩

/-- Round trip: decoding an encoded string recovers it exactly. -/
theorem b64urlDec_b64url (s : Str) : b64urlDec (b64url s) = some s := by
  induction s with
  | nil => rfl
  | cons c rest ih => exact b64urlDec_encChar c ih

/-- The encoding is injective. -/
theorem b64url_inj {s₁ s₂ : Str} (h : b64url s₁ = b64url s₂) : s₁ = s₂ := by
  have h₁ := b64urlDec_b64url s₁
  have h₂ := b64urlDec_b64url s₂
  rw [h, h₂] at h₁
  exact ((Option.some.injEq _ _).mp h₁).symm

/-- Every character of an encoded string is a hex digit. -/
theorem mem_b64url_isHex {c : Char} {s : Str} (h : c ∈ b64url s) : isHexCh c = true := by
  induction s with
  | nil => cases h
  | cons d rest ih =>
    rw [b64url, List.mem_append] at h
    rcases h with h | h
    · have h16 : ∀ m : Nat, m % 16 < 16 := fun m => Nat.mod_lt _ (by norm_num)
      simp only [encChar, List.mem_cons, List.not_mem_nil, or_false] at h
      rcases h with rfl | rfl | rfl | rfl | rfl | rfl <;> exact isHexCh_hexDigit _ (h16 _)
    · exact ih h

theorem not_mem_b64url {c : Char} (hc : isHexCh c = false) (s : Str) : c ∉ b64url s :=
  fun h => by rw [mem_b64url_isHex h] at hc; cases hc

/-! ## Splitting on a separator character

Model of Python's `str.split` with a one-character separator, used both by
the JWT compact serialization (separator `.`) and by the modelled digest
format of the password hasher (separator `$`). -/

/-- Split a string at every occurrence of the separator character. -/
def splitOnChar (sep : Char) : Str → List Str
  | [] => [[]]
  | c :: rest =>
    if c = sep then [] :: splitOnChar sep rest
    else
      match splitOnChar sep rest with
      | [] => [[c]]
      | r :: rs => (c :: r) :: rs

theorem splitOnChar_ne_nil (sep : Char) (s : Str) : splitOnChar sep s ≠ [] := by
  cases s with
  | nil => simp [splitOnChar]
  | cons c rest =>
    by_cases h : c = sep
    · simp [splitOnChar, h]
    · simp only [splitOnChar, if_neg h]
      cases splitOnChar sep rest <;> simp

/-- A separator-free string splits into just itself. -/
theorem splitOnChar_eq_single {sep : Char} {s : Str} (h : sep ∉ s) :
    splitOnChar sep s = [s] := by
  induction s with
  | nil => rfl
  | cons c rest ih =>
    simp only [List.mem_cons, not_or] at h
    have hc : c ≠ sep := fun hc => h.1 hc.symm
    rw [splitOnChar, if_neg hc, ih h.2]

/-- Splitting distributes over an explicit separator occurrence, provided the
part before it is separator-free. -/
theorem splitOnChar_append {sep : Char} {a : Str} (h : sep ∉ a) (y : Str) :
    splitOnChar sep (a ++ sep :: y) = a :: splitOnChar sep y := by
  induction a with
  | nil => simp [splitOnChar]
  | cons c a' ih =>
    simp only [List.mem_cons, not_or] at h
    have hc : c ≠ sep := fun hc => h.1 hc.symm
    rw [List.cons_append, splitOnChar, if_neg hc, ih h.2]

theorem splitOnChar_length_cons {sep c : Char} (hc : c ≠ sep) (l : Str) :
    (splitOnChar sep (c :: l)).length = (splitOnChar sep l).length := by
  rw [splitOnChar, if_neg hc]
  rcases hl : splitOnChar sep l with _ | ⟨r, rs⟩
  · exact absurd hl (splitOnChar_ne_nil sep l)
  · simp

/-- Chunk counts add across an explicit separator occurrence. -/
theorem splitOnChar_length_append (sep : Char) (x y : Str) :
    (splitOnChar sep (x ++ sep :: y)).length =
      (splitOnChar sep x).length + (splitOnChar sep y).length := by
  induction x with
  | nil =>
    have h : splitOnChar sep (sep :: y) = [] :: splitOnChar sep y := by
      rw [splitOnChar, if_pos rfl]
    have h2 : splitOnChar sep [] = [[]] := rfl
    rw [List.nil_append, h, h2]
    simp only [List.length_cons, List.length_nil]
    omega
  | cons c x' ih =>
    by_cases hc : c = sep
    · subst hc
      rw [List.cons_append, splitOnChar, if_pos rfl, splitOnChar, if_pos rfl]
      simp only [List.length_cons, ih]
      omega
    · rw [List.cons_append, splitOnChar_length_cons hc, ih,
        splitOnChar_length_cons hc]

theorem one_le_splitOnChar_length (sep : Char) (s : Str) :
    1 ≤ (splitOnChar sep s).length :=
  List.length_pos.mpr (splitOnChar_ne_nil sep s)

/-- A string containing the separator splits into at least two chunks. -/
theorem two_le_splitOnChar_length {sep : Char} {s : Str} (h : sep ∈ s) :
    2 ≤ (splitOnChar sep s).length := by
  induction s with
  | nil => cases h
  | cons c rest ih =>
    by_cases hc : c = sep
    · subst hc
      rw [splitOnChar, if_pos rfl]
      have := one_le_splitOnChar_length c rest
      simp only [List.length_cons]
      omega
    · rw [splitOnChar_length_cons hc]
      rcases List.mem_cons.mp h with h' | h'
      · exact absurd h'.symm hc
      · exact ih h'

/-- Decomposition at a separator is unique when both leading parts are
separator-free. -/
theorem append_sep_inj {sep : Char} {a₁ a₂ r₁ r₂ : Str} (h₁ : sep ∉ a₁)
    (h₂ : sep ∉ a₂) (h : a₁ ++ sep :: r₁ = a₂ ++ sep :: r₂) : a₁ = a₂ ∧ r₁ = r₂ := by
  induction a₁ generalizing a₂ with
  | nil =>
    cases a₂ with
    | nil => simpa using h
    | cons d a₂' =>
      simp only [List.nil_append, List.cons_append, List.cons.injEq] at h
      exact absurd h.1 (fun hd => h₂ (hd ▸ List.mem_cons_self d a₂'))
  | cons c a₁' ih =>
    cases a₂ with
    | nil =>
      simp only [List.cons_append, List.nil_append, List.cons.injEq] at h
      exact absurd h.1 (fun hd => h₁ (hd ▸ List.mem_cons_self c a₁'))
    | cons d a₂' =>
      simp only [List.cons_append, List.cons.injEq] at h
      have h₁' : sep ∉ a₁' := fun hm => h₁ (List.mem_cons_of_mem c hm)
      have h₂' : sep ∉ a₂' := fun hm => h₂ (List.mem_cons_of_mem d hm)
      obtain ⟨ha, hr⟩ := ih h₁' h₂' h.2
      exact ⟨by rw [h.1, ha], hr⟩

/-! ## Decimal numerals

Model of Python's decimal rendering of integers (as the json module emits
them) together with a parser for the same notation. -/

/-- Decimal digit character test. -/
def isDig (c : Char) : Bool := decide (48 ≤ c.toNat) && decide (c.toNat ≤ 57)

/-- Value of a decimal digit character. -/
def digVal (c : Char) : Nat := c.toNat - 48

/-- Structural helper: most-significant-first decimal digits of `n`, valid
while `n` is at most the fuel. -/
def natToCharsAux : Nat → Nat → Str
  | 0, _ => []
  | _, 0 => []
  | fuel + 1, n + 1 =>
    natToCharsAux fuel ((n + 1) / 10) ++ [hexDigit ((n + 1) % 10)]

/-- Decimal rendering of a natural number. -/
def natToChars (n : Nat) : Str :=
  if n = 0 then [Char.ofNat 48] else natToCharsAux n n

theorem natToCharsAux_zero (fuel : Nat) : natToCharsAux fuel 0 = [] := by
  cases fuel <;> rfl

theorem natToCharsAux_eq_digits : ∀ fuel n, 0 < n → n ≤ fuel →
    natToCharsAux fuel n = ((Nat.digits 10 n).map (fun d => hexDigit d)).reverse := by
  intro fuel
  induction fuel with
  | zero => intro n h1 h2; omega
  | succ f ih =>
    intro n h1 h2
    match n, h1 with
    | n + 1, _ =>
      rw [natToCharsAux, Nat.digits_def' (by norm_num : (1 : Nat) < 10) (Nat.succ_pos n)]
      simp only [List.map_cons, List.reverse_cons]
      by_cases hq : (n + 1) / 10 = 0
      · rw [hq, natToCharsAux_zero, Nat.digits_zero]
        simp
      · rw [ih _ (Nat.pos_of_ne_zero hq) (by omega)]

/-- On nonzero input the rendering agrees with the mathlib digit expansion,
most significant digit first. -/
theorem natToChars_eq_digits {n : Nat} (h : n ≠ 0) :
    natToChars n = ((Nat.digits 10 n).map (fun d => hexDigit d)).reverse := by
  rw [natToChars, if_neg h]
  exact natToCharsAux_eq_digits n n (Nat.pos_of_ne_zero h) le_rfl

/-- Parse a nonempty all-digit string as a natural number. -/
def natParse (ds : Str) : Option Nat :=
  if ds.isEmpty then none
  else if ds.all isDig then some (Nat.ofDigits 10 ((ds.map digVal).reverse)) else none

theorem natToChars_ne_nil (n : Nat) : natToChars n ≠ [] := by
  by_cases h : n = 0
  · subst h; decide
  · rw [natToChars_eq_digits h]
    simp [Nat.digits_ne_nil_iff_ne_zero.mpr h]

/-- Every character of a decimal numeral is a digit. -/
theorem mem_natToChars_isDig {c : Char} {n : Nat} (h : c ∈ natToChars n) :
    isDig c = true := by
  by_cases h0 : n = 0
  · subst h0
    rw [show natToChars 0 = [Char.ofNat 48] from rfl] at h
    simp only [List.mem_singleton] at h
    subst h; decide
  · rw [natToChars_eq_digits h0, List.mem_reverse, List.mem_map] at h
    obtain ⟨d, hd, rfl⟩ := h
    have hlt : d < 10 := Nat.digits_lt_base (by norm_num) hd
    have hgen : ∀ k, k < 10 → isDig (hexDigit k) = true := by decide
    exact hgen d hlt

/-- Round trip: parsing a decimal rendering recovers the number. -/
theorem natParse_natToChars (n : Nat) : natParse (natToChars n) = some n := by
  by_cases h0 : n = 0
  · subst h0; decide
  · have hne := natToChars_ne_nil n
    have hdig : ∀ c ∈ natToChars n, isDig c = true := fun c hc => mem_natToChars_isDig hc
    unfold natParse
    rw [if_neg (by simpa [List.isEmpty_iff] using hne),
      if_pos (List.all_eq_true.mpr hdig)]
    rw [natToChars_eq_digits h0, List.map_reverse, List.reverse_reverse, List.map_map]
    have hmap : (Nat.digits 10 n).map (digVal ∘ fun d => hexDigit d) = Nat.digits 10 n := by
      have h1 : ∀ d ∈ Nat.digits 10 n, (digVal ∘ fun d => hexDigit d) d = id d := by
        intro d hd
        have hlt : d < 10 := Nat.digits_lt_base (by norm_num) hd
        have hgen : ∀ k, k < 10 → digVal (hexDigit k) = k := by decide
        simpa using hgen d hlt
      rw [List.map_congr_left h1, List.map_id]
    rw [hmap, Nat.ofDigits_digits]

theorem natToChars_inj {m n : Nat} (h : natToChars m = natToChars n) : m = n := by
  have hm := natParse_natToChars m
  rw [h, natParse_natToChars n] at hm
  exact ((Option.some.injEq _ _).mp hm).symm

/-- Decimal rendering of an integer, sign first, as Python's json emits it. -/
def intChars (i : Int) : Str :=
  if i < 0 then Char.ofNat 45 :: natToChars i.natAbs else natToChars i.natAbs

/-- Parse an optionally-signed decimal numeral as an integer. -/
def intParse (ds : Str) : Option Int :=
  match ds with
  | [] => none
  | c :: rest =>
    if c = Char.ofNat 45 then
      match natParse rest with
      | some n => some (-(n : Int))
      | none => none
    else
      match natParse (c :: rest) with
      | some n => some ((n : Int))
      | none => none

theorem intParse_intChars (i : Int) : intParse (intChars i) = some i := by
  by_cases h : i < 0
  · rw [intChars, if_pos h, intParse, if_pos rfl, natParse_natToChars]
    show some (-(i.natAbs : Int)) = some i
    congr 1
    omega
  · rw [intChars, if_neg h]
    rcases hnc : natToChars i.natAbs with _ | ⟨c, rest⟩
    · exact absurd hnc (natToChars_ne_nil _)
    · have hd : isDig c = true := mem_natToChars_isDig (hnc ▸ List.mem_cons_self c rest)
      have hc45 : c ≠ Char.ofNat 45 := by
        intro hc
        rw [hc] at hd
        exact absurd hd (by decide)
      rw [intParse, if_neg hc45, ← hnc, natParse_natToChars]
      show some ((i.natAbs : Int)) = some i
      congr 1
      omega

/-- Characters of an integer numeral: digits, possibly after a minus sign. -/
theorem mem_intChars {c : Char} {i : Int} (h : c ∈ intChars i) :
    isDig c = true ∨ c = Char.ofNat 45 := by
  unfold intChars at h
  by_cases hi : i < 0
  · rw [if_pos hi] at h
    rcases List.mem_cons.mp h with rfl | h'
    · exact Or.inr rfl
    · exact Or.inl (mem_natToChars_isDig h')
  · rw [if_neg hi] at h
    exact Or.inl (mem_natToChars_isDig h)

/-! ## JSON claims serialization

Model of the payload encoding inside jose's jwt.encode: the claims mapping
is rendered as compact JSON with insertion-order keys ("sub" first, then
the "exp" jwt.encode appends), string values escaped as json.dumps escapes
them.  The parser accepts exactly the canonical shape the encoder emits,
which is the only shape a signature-checked payload can have. -/

/-- JSON escaping of one character: quote and backslash gain a backslash,
every other character passes through. -/
def jsonEscChar (c : Char) : Str :=
  if c = '"' then ['\\', '"'] else if c = '\\' then ['\\', '\\'] else [c]

/-- JSON escaping of a whole string body. -/
def jsonEsc : Str → Str
  | [] => []
  | c :: rest => jsonEscChar c ++ jsonEsc rest

/-- Token claims: subject and expiry in epoch seconds, the payload produced
by create_access_token in src/auth.py from data \x7b"sub": username\x7d. -/
structure Claims where
  sub : Str
  exp : Int
  deriving DecidableEq, Repr

/-- Opening text of the claims JSON object, through the quote that starts
the subject value. -/
def subPre : Str := "\x7b\"sub\":\"".data

/-- Middle text of the claims JSON object, between the subject value's
closing quote and the expiry numeral. -/
def expMid : Str := ",\"exp\":".data

/-- Compact JSON rendering of the claims. -/
def claimsJson (c : Claims) : Str :=
  subPre ++ jsonEsc c.sub ++ '"' :: (expMid ++ intChars c.exp ++ ['\x7d'])

/-- Parse a JSON string body up to its closing quote, undoing the escaping;
returns the contents together with the input left after the quote. -/
def parseJStr : Str → Option (Str × Str)
  | [] => none
  | '"' :: rest => some ([], rest)
  | '\\' :: [] => none
  | '\\' :: d :: rest2 =>
    match parseJStr rest2 with
    | some (s, r) => some (d :: s, r)
    | none => none
  | c :: rest =>
    match parseJStr rest with
    | some (s, r) => some (c :: s, r)
    | none => none

/-- Strip an expected literal text from the front of the input. -/
def stripPre : Str → Str → Option Str
  | [], s => some s
  | _ :: _, [] => none
  | q :: qs, c :: cs => if c = q then stripPre qs cs else none

/-- Parser for the canonical claims JSON emitted by `claimsJson`. -/
def claimsParse (s : Str) : Option Claims :=
  (stripPre subPre s).bind fun r1 =>
    (parseJStr r1).bind fun sr =>
      (stripPre expMid sr.2).bind fun r3 =>
        r3.getLast?.bind fun last =>
          if last = '\x7d' then
            (intParse r3.dropLast).bind fun e => some ⟨sr.1, e⟩
          else none

theorem stripPre_append (q r : Str) : stripPre q (q ++ r) = some r := by
  induction q with
  | nil => rfl
  | cons c qs ih => rw [List.cons_append, stripPre, if_pos rfl, ih]

theorem parseJStr_quote (tail : Str) : parseJStr ('"' :: tail) = some ([], tail) := rfl

theorem parseJStr_escStep (d : Char) (rest2 : Str) :
    parseJStr ('\\' :: d :: rest2) =
      match parseJStr rest2 with
      | some (s, r) => some (d :: s, r)
      | none => none := rfl

theorem parseJStr_plainStep {c : Char} (h1 : c ≠ '"') (h2 : c ≠ '\\') (rest : Str) :
    parseJStr (c :: rest) =
      match parseJStr rest with
      | some (s, r) => some (c :: s, r)
      | none => none := by
  rw [parseJStr.eq_def]
  split <;> simp_all

/-- Round trip of the string-body parser against the escaper, for any
trailing input after the closing quote. -/
theorem parseJStr_jsonEsc (s tail : Str) :
    parseJStr (jsonEsc s ++ '"' :: tail) = some (s, tail) := by
  induction s with
  | nil => rw [jsonEsc, List.nil_append, parseJStr_quote]
  | cons c rest ih =>
    rw [jsonEsc, jsonEscChar]
    by_cases hq : c = '"'
    · subst hq
      rw [if_pos rfl]
      simp only [List.cons_append, List.nil_append]
      rw [parseJStr_escStep, ih]
    · rw [if_neg hq]
      by_cases hb : c = '\\'
      · subst hb
        rw [if_pos rfl]
        simp only [List.cons_append, List.nil_append]
        rw [parseJStr_escStep, ih]
      · rw [if_neg hb]
        simp only [List.cons_append, List.nil_append]
        rw [parseJStr_plainStep hq hb, ih]

/-- Round trip: the claims parser inverts the claims encoder. -/
theorem claimsParse_claimsJson (c : Claims) : claimsParse (claimsJson c) = some c := by
  have hassoc : claimsJson c =
      subPre ++ (jsonEsc c.sub ++ '"' :: (expMid ++ (intChars c.exp ++ ['\x7d']))) := by
    rw [claimsJson]
    simp [List.append_assoc]
  rw [claimsParse, hassoc, stripPre_append, Option.some_bind, parseJStr_jsonEsc,
    Option.some_bind]
  simp [stripPre_append, List.getLast?_concat, List.dropLast_concat, intParse_intChars]

/-! ## Bearer-token codec

Model of create_access_token from src/auth.py and of the jose
jwt.encode / jwt.decode pair it and get_current_user delegate to, with the
repository's configuration ALGORITHM = HS256.  jose's compact JWS
serialization is `b64url(header) . b64url(payload) . signature`, the
signature being the base64url HMAC-SHA256 of the two leading segments
under the process secret; jwt.decode splits the token, checks the header,
verifies the signature over the signing input before reading the payload,
and finally rejects claims whose expiry is not strictly in the future
(RFC 7519 exp validation; jose raises ExpiredSignatureError, a JWTError).
Error labels follow the spec taxonomy: Malformed for parse failures,
BadSignature for a signature mismatch, Expired for a stale expiry. -/

/-- Fixed JSON header for algorithm HS256, as jose serializes it. -/
def headerJson : Str := "\x7b\"alg\":\"HS256\",\"typ\":\"JWT\"\x7d".data

/-- Header segment of every issued token. -/
def headerB64 : Str := b64url headerJson

/-- Abstract model of `base64url(hmac_sha256(key, msg))`, the signature jose
attaches to the signing input: executable, deterministic, free of the dot
separator, and collision-free in the message for a fixed key — exactly the
properties the development uses (real HMAC offers the last only
computationally). -/
def hmacSig (key msg : Str) : Str := b64url (key ++ msg)

/-- Signing input of the compact serialization: header and payload segments
joined by the dot separator. -/
def signingInput (h p : Str) : Str := h ++ '.' :: p

/-- Data mapping passed to create_access_token; both call sites in the
repository pass exactly a "sub" entry carrying the username. -/
structure TokenData where
  sub : Str
  deriving DecidableEq, Repr

/-- Model of create_access_token from src/auth.py: copies the data, sets
"exp" to now plus the given delta (15 minutes when absent) and signs with
jose's jwt.encode under the process secret.  The wall clock (utcnow, in
epoch seconds) is an explicit argument. -/
def create_access_token (key : Str) (data : TokenData) (expires_delta : Option Int)
    (now : Int) : Str :=
  let exp := now + expires_delta.getD (15 * 60)
  let payload := b64url (claimsJson ⟨data.sub, exp⟩)
  signingInput headerB64 payload ++ '.' :: hmacSig key (signingInput headerB64 payload)

/-- Failure taxonomy of token decoding, following the spec's names for the
jose exceptions (JWTError / ExpiredSignatureError) that get_current_user
turns into a 401 response. -/
inductive DecodeError where
  | malformed
  | badSignature
  | expired
  deriving DecidableEq, Repr

/-- Outcome of decoding a token. -/
inductive DecodeResult where
  | ok (c : Claims)
  | err (e : DecodeError)
  deriving DecidableEq, Repr

/-- Decoding once the token has been split into its three segments: header
check, signature verification over the signing input, payload decoding,
expiry validation — in jose's order. -/
def jwtDecodeSegs (key h p s : Str) (now : Int) : DecodeResult :=
  if h ≠ headerB64 then .err .malformed
  else if s ≠ hmacSig key (signingInput h p) then .err .badSignature
  else
    match b64urlDec p with
    | none => .err .malformed
    | some pj =>
      match claimsParse pj with
      | none => .err .malformed
      | some c => if c.exp ≤ now then .err .expired else .ok c

/-- Model of jose's jwt.decode as called by get_current_user in
src/auth.py: a compact JWS has exactly three dot-separated segments. -/
def jwtDecode (key token : Str) (now : Int) : DecodeResult :=
  match splitOnChar '.' token with
  | [h, p, s] => jwtDecodeSegs key h p s now
  | _ => .err .malformed

/-- Claims segment of the token issued for the given inputs. -/
def payloadSeg (data : TokenData) (delta : Option Int) (now : Int) : Str :=
  b64url (claimsJson ⟨data.sub, now + delta.getD (15 * 60)⟩)

/-- Signature segment of the token issued for the given inputs. -/
def sigSeg (key : Str) (data : TokenData) (delta : Option Int) (now : Int) : Str :=
  hmacSig key (signingInput headerB64 (payloadSeg data delta now))

/-- Issued tokens decompose into the three named segments. -/
theorem create_access_token_eq (key : Str) (data : TokenData) (delta : Option Int)
    (now : Int) :
    create_access_token key data delta now =
      headerB64 ++ '.' :: (payloadSeg data delta now ++ '.' :: sigSeg key data delta now) := by
  simp only [create_access_token, payloadSeg, sigSeg, signingInput, List.append_assoc,
    List.cons_append]

theorem dot_not_mem_b64url (s : Str) : ('.' : Char) ∉ b64url s :=
  not_mem_b64url (by decide) s

theorem dot_not_mem_headerB64 : ('.' : Char) ∉ headerB64 :=
  dot_not_mem_b64url headerJson

/-- Splitting an issued token yields exactly its three segments. -/
theorem splitOnChar_token {p s : Str} (hp : ('.' : Char) ∉ p) (hs : ('.' : Char) ∉ s) :
    splitOnChar '.' (headerB64 ++ '.' :: (p ++ '.' :: s)) = [headerB64, p, s] := by
  rw [splitOnChar_append dot_not_mem_headerB64, splitOnChar_append hp,
    splitOnChar_eq_single hs]

theorem jwtDecode_eq_segs {t h p s : Str} (key : Str) (now : Int)
    (hsplit : splitOnChar '.' t = [h, p, s]) :
    jwtDecode key t now = jwtDecodeSegs key h p s now := by
  rw [jwtDecode, hsplit]

/-- Tokens that do not split into exactly three segments are malformed. -/
theorem jwtDecode_malformed_of_count {t : Str} (key : Str) (now : Int)
    (h : (splitOnChar '.' t).length ≠ 3) : jwtDecode key t now = .err .malformed := by
  rw [jwtDecode]
  rcases hsp : splitOnChar '.' t with _ | ⟨a, _ | ⟨b, _ | ⟨c, _ | ⟨d, l⟩⟩⟩⟩
  · rfl
  · rfl
  · rfl
  · rw [hsp] at h
    simp at h
  · rfl

/-- The signature model is collision-free in the message for a fixed key. -/
theorem hmacSig_inj {key m₁ m₂ : Str} (h : hmacSig key m₁ = hmacSig key m₂) :
    m₁ = m₂ :=
  List.append_cancel_left (b64url_inj h)

/-- The signing input determines the payload segment. -/
theorem signingInput_inj {h p₁ p₂ : Str} (he : signingInput h p₁ = signingInput h p₂) :
    p₁ = p₂ := by
  rw [signingInput, signingInput] at he
  have := List.append_cancel_left he
  exact List.tail_eq_of_cons_eq this

theorem payloadSeg_dot_free (data : TokenData) (delta : Option Int) (now : Int) :
    ('.' : Char) ∉ payloadSeg data delta now := by
  rw [payloadSeg]
  exact dot_not_mem_b64url _

theorem sigSeg_dot_free (key : Str) (data : TokenData) (delta : Option Int) (now : Int) :
    ('.' : Char) ∉ sigSeg key data delta now := by
  rw [sigSeg, hmacSig]
  exact dot_not_mem_b64url _

/-- Decoding an issued token with the issuing key returns its claims when the
expiry is still in the future, and the Expired failure otherwise. -/
theorem jwtDecode_create (key : Str) (data : TokenData) (delta : Option Int)
    (now tnow : Int) :
    jwtDecode key (create_access_token key data delta now) tnow =
      if now + delta.getD (15 * 60) ≤ tnow then .err .expired
      else .ok ⟨data.sub, now + delta.getD (15 * 60)⟩ := by
  have h1 : b64urlDec (payloadSeg data delta now) =
      some (claimsJson ⟨data.sub, now + delta.getD (15 * 60)⟩) := by
    rw [payloadSeg, b64urlDec_b64url]
  have h2 : sigSeg key data delta now =
      hmacSig key (signingInput headerB64 (payloadSeg data delta now)) := by
    rw [sigSeg]
  rw [create_access_token_eq,
    jwtDecode_eq_segs key tnow
      (splitOnChar_token (payloadSeg_dot_free data delta now)
        (sigSeg_dot_free key data delta now)),
    jwtDecodeSegs, if_neg (fun hne => hne rfl), if_neg (fun hne => hne h2), h1]
  simp only [claimsParse_claimsJson]

theorem set_cons_succ (a : Char) (l : Str) (n : Nat) (x : Char) :
    (a :: l).set (n + 1) x = a :: l.set n x := rfl

/-- Writing inside the claims segment of a token rewrites that segment. -/
theorem token_set_claims {p s : Str} {i : Nat} (c : Char) (hi : i < p.length) :
    (headerB64 ++ '.' :: (p ++ '.' :: s)).set (headerB64.length + (i + 1)) c =
      headerB64 ++ '.' :: (p.set i c ++ '.' :: s) := by
  rw [List.set_append_right _ _ (Nat.le_add_right _ _), Nat.add_sub_cancel_left,
    set_cons_succ, List.set_append_left _ _ hi]

/-- Writing inside the signature segment of a token rewrites that segment. -/
theorem token_set_sig {p s : Str} (j : Nat) (c : Char) :
    (headerB64 ++ '.' :: (p ++ '.' :: s)).set
        (headerB64.length + (p.length + (j + 1) + 1)) c =
      headerB64 ++ '.' :: (p ++ '.' :: s.set j c) := by
  rw [List.set_append_right _ _ (Nat.le_add_right _ _), Nat.add_sub_cancel_left,
    set_cons_succ, List.set_append_right _ _ (Nat.le_add_right _ _),
    Nat.add_sub_cancel_left, set_cons_succ]

theorem get_set_self : ∀ (l : Str) (i : Nat) (x : Char), i < l.length →
    (l.set i x).get? i = some x
  | [], i, x, h => absurd h (by simp)
  | a :: l, 0, x, _ => rfl
  | a :: l, n + 1, x, h => get_set_self l n x (by simpa using h)

theorem getElem?_of_get : ∀ (l : Str) (i : Nat) (hi : i < l.length),
    l.get? i = some (l.get ⟨i, hi⟩)
  | [], i, hi => absurd hi (by simp)
  | a :: l, 0, _ => rfl
  | a :: l, n + 1, hi => getElem?_of_get l n (by simpa using hi)

/-- Replacing one character by a different one changes the string. -/
theorem set_ne_of_ne {l : Str} {i : Nat} {x : Char} (hi : i < l.length)
    (hx : x ≠ l.get ⟨i, hi⟩) : l.set i x ≠ l := by
  intro he
  apply hx
  have h0 := get_set_self l i x hi
  rw [he, getElem?_of_get l i hi] at h0
  exact ((Option.some.injEq _ _).mp h0).symm

/-- Decoding fails when exactly one segment of an issued token has been
replaced: with Malformed if the replacement breaks the three-way split and
with BadSignature otherwise.  The replaced-signature case relies only on the
signature being deterministic; the replaced-claims case also uses the
collision-freedom of the signature model. -/
theorem jwtDecode_tampered (key : Str) (data : TokenData) (delta : Option Int)
    (tnow now : Int) {p s : Str}
    (hps : p ≠ payloadSeg data delta now ∧ s = sigSeg key data delta now ∨
      p = payloadSeg data delta now ∧ s ≠ sigSeg key data delta now) :
    jwtDecode key (headerB64 ++ '.' :: (p ++ '.' :: s)) tnow = .err .badSignature ∨
    jwtDecode key (headerB64 ++ '.' :: (p ++ '.' :: s)) tnow = .err .malformed := by
  by_cases hp : ('.' : Char) ∈ p
  · right
    apply jwtDecode_malformed_of_count
    rw [splitOnChar_length_append '.' headerB64 (p ++ '.' :: s),
      splitOnChar_length_append '.' p s,
      splitOnChar_eq_single dot_not_mem_headerB64]
    have h2 := two_le_splitOnChar_length hp
    have h1 := one_le_splitOnChar_length '.' s
    simp only [List.length_singleton]
    omega
  · by_cases hs : ('.' : Char) ∈ s
    · right
      apply jwtDecode_malformed_of_count
      rw [splitOnChar_length_append '.' headerB64 (p ++ '.' :: s),
        splitOnChar_length_append '.' p s,
        splitOnChar_eq_single dot_not_mem_headerB64,
        splitOnChar_eq_single hp]
      have h2 := two_le_splitOnChar_length hs
      simp only [List.length_singleton]
      omega
    · left
      have hcond : s ≠ hmacSig key (signingInput headerB64 p) := by
        rcases hps with ⟨hpne, hseq⟩ | ⟨hpeq, hsne⟩
        · intro heq
          apply hpne
          have : hmacSig key (signingInput headerB64 (payloadSeg data delta now)) =
              hmacSig key (signingInput headerB64 p) := by
            rw [← heq, hseq, sigSeg]
          exact (signingInput_inj (hmacSig_inj this)).symm
        · intro heq
          apply hsne
          rw [heq, hpeq, sigSeg]
      rw [jwtDecode_eq_segs key tnow (splitOnChar_token hp hs), jwtDecodeSegs,
        if_neg (fun hne => hne rfl), if_pos hcond]

/-- Decoding succeeds only when the recorded expiry is still strictly in the
future at decode time. -/
theorem jwtDecode_ok_exp {key t : Str} {now : Int} {c : Claims}
    (h : jwtDecode key t now = .ok c) : now < c.exp := by
  rw [jwtDecode] at h
  split at h
  · rw [jwtDecodeSegs] at h
    split at h
    · cases h
    · split at h
      · cases h
      · split at h
        · cases h
        · split at h
          · cases h
          · split at h
            · cases h
            · cases h
              omega
  · cases h

/-- Expiry recorded in a token's claims segment, read without regard to the
signature's validity. -/
def embeddedExp (t : Str) : Option Int :=
  match splitOnChar '.' t with
  | [_, p, _] => ((b64urlDec p).bind claimsParse).map Claims.exp
  | _ => none

/-- Embedded expiry of any token whose middle segment is an issued claims
segment. -/
theorem embeddedExp_of_payload {t a x : Str} {data : TokenData} {delta : Option Int}
    {now : Int} (hsplit : splitOnChar '.' t = [a, payloadSeg data delta now, x]) :
    embeddedExp t = some (now + delta.getD (15 * 60)) := by
  have h1 : b64urlDec (payloadSeg data delta now) =
      some (claimsJson ⟨data.sub, now + delta.getD (15 * 60)⟩) := by
    rw [payloadSeg, b64urlDec_b64url]
  rw [embeddedExp, hsplit]
  show ((b64urlDec (payloadSeg data delta now)).bind claimsParse).map Claims.exp = _
  rw [h1, Option.some_bind, claimsParse_claimsJson]
  rfl

/-- C2: decoding the token issued for subject "alice" with a ttl of 3600
seconds returns claims whose subject is "alice" and whose expiry is exactly
3600 seconds after the issuance time. -/
theorem claim_C2_issue_decode (key : Str) (now : Int) :
    jwtDecode key (create_access_token key ⟨"alice".data⟩ (some 3600) now) now =
      .ok ⟨"alice".data, now + 3600⟩ := by
  rw [jwtDecode_create]
  simp only [Option.getD_some]
  rw [if_neg (by omega)]

/-- C3 counterexample: a concrete issued token splits into three
dot-separated segments, not the two segments the claim asserts. -/
theorem claim_C3_cex :
    (splitOnChar '.' (create_access_token ("k".data) ⟨"a".data⟩ (some 60) 0)).length = 3 ∧
    (splitOnChar '.' (create_access_token ("k".data) ⟨"a".data⟩ (some 60) 0)).length ≠ 2 := by
  have h : splitOnChar '.' (create_access_token ("k".data) ⟨"a".data⟩ (some 60) 0) =
      [headerB64, payloadSeg ⟨"a".data⟩ (some 60) 0,
        sigSeg ("k".data) ⟨"a".data⟩ (some 60) 0] := by
    rw [create_access_token_eq]
    exact splitOnChar_token (payloadSeg_dot_free _ _ _) (sigSeg_dot_free _ _ _ _)
  rw [h]
  exact ⟨rfl, by decide⟩

/-- C3 (amended): an issued token is the standard JWT compact serialization:
exactly three dot-separated segments — base64url JSON header, base64url JSON
claims (subject and epoch-seconds expiry), and the base64url-encoded
HMAC-SHA256 signature over the signing input — rather than two segments with
a hex-encoded signature. -/
theorem claim_C3_token_format (key : Str) (data : TokenData) (delta : Option Int)
    (now : Int) :
    splitOnChar '.' (create_access_token key data delta now) =
      [b64url headerJson,
        b64url (claimsJson ⟨data.sub, now + delta.getD (15 * 60)⟩),
        hmacSig key (b64url headerJson ++ '.' ::
          b64url (claimsJson ⟨data.sub, now + delta.getD (15 * 60)⟩))] ∧
    (splitOnChar '.' (create_access_token key data delta now)).length = 3 := by
  have h : splitOnChar '.' (create_access_token key data delta now) =
      [headerB64, payloadSeg data delta now, sigSeg key data delta now] := by
    rw [create_access_token_eq]
    exact splitOnChar_token (payloadSeg_dot_free data delta now)
      (sigSeg_dot_free key data delta now)
  refine ⟨?_, by rw [h]; rfl⟩
  rw [h, sigSeg, signingInput, payloadSeg, headerB64]

/-- C4: flipping any single character inside the claims segment or inside
the signature segment of an issued token makes decoding fail — with
BadSignature, or with Malformed when the flip breaks the dot-split — and no
such flip ever decodes to valid claims. -/
theorem claim_C4_single_char_flip (key : Str) (data : TokenData) (delta : Option Int)
    (now tnow : Int) (i j : Nat) (c₁ c₂ : Char)
    (hi : i < (payloadSeg data delta now).length)
    (hc₁ : c₁ ≠ (payloadSeg data delta now).get ⟨i, hi⟩)
    (hj : j < (sigSeg key data delta now).length)
    (hc₂ : c₂ ≠ (sigSeg key data delta now).get ⟨j, hj⟩) :
    (jwtDecode key ((create_access_token key data delta now).set
        (headerB64.length + (i + 1)) c₁) tnow = .err .badSignature ∨
      jwtDecode key ((create_access_token key data delta now).set
        (headerB64.length + (i + 1)) c₁) tnow = .err .malformed) ∧
    (jwtDecode key ((create_access_token key data delta now).set
        (headerB64.length + ((payloadSeg data delta now).length + (j + 1) + 1)) c₂) tnow =
        .err .badSignature ∨
      jwtDecode key ((create_access_token key data delta now).set
        (headerB64.length + ((payloadSeg data delta now).length + (j + 1) + 1)) c₂) tnow =
        .err .malformed) ∧
    ∀ c : Claims,
      jwtDecode key ((create_access_token key data delta now).set
        (headerB64.length + (i + 1)) c₁) tnow ≠ .ok c ∧
      jwtDecode key ((create_access_token key data delta now).set
        (headerB64.length + ((payloadSeg data delta now).length + (j + 1) + 1)) c₂) tnow ≠
        .ok c := by
  have e1 : (create_access_token key data delta now).set (headerB64.length + (i + 1)) c₁ =
      headerB64 ++ '.' :: ((payloadSeg data delta now).set i c₁ ++ '.' ::
        sigSeg key data delta now) := by
    rw [create_access_token_eq, token_set_claims c₁ hi]
  have e2 : (create_access_token key data delta now).set
      (headerB64.length + ((payloadSeg data delta now).length + (j + 1) + 1)) c₂ =
      headerB64 ++ '.' :: (payloadSeg data delta now ++ '.' ::
        (sigSeg key data delta now).set j c₂) := by
    rw [create_access_token_eq, token_set_sig j c₂]
  have hA := jwtDecode_tampered key data delta tnow now
    (Or.inl ⟨set_ne_of_ne hi hc₁, rfl⟩)
  have hB := jwtDecode_tampered key data delta tnow now
    (Or.inr ⟨rfl, set_ne_of_ne hj hc₂⟩)
  rw [e1, e2]
  refine ⟨hA, hB, fun c => ⟨?_, ?_⟩⟩
  · rcases hA with h | h <;> rw [h] <;> intro hcon <;> cases hcon
  · rcases hB with h | h <;> rw [h] <;> intro hcon <;> cases hcon

set_option maxRecDepth 400000 in
/-- Witness for the tamper theorem at a concrete token, flipping position 0
of the claims segment and position 0 of the signature segment to a character
outside the segment alphabet. -/
theorem claim_C4_single_char_flip_witness :
    (0 < (payloadSeg ⟨"a".data⟩ (some 60) 0).length) ∧
    (0 < (sigSeg ("k".data) ⟨"a".data⟩ (some 60) 0).length) ∧
    ∀ c : Claims,
      jwtDecode ("k".data) ((create_access_token ("k".data) ⟨"a".data⟩ (some 60) 0).set
        (headerB64.length + (0 + 1)) 'z') 0 ≠ .ok c ∧
      jwtDecode ("k".data) ((create_access_token ("k".data) ⟨"a".data⟩ (some 60) 0).set
        (headerB64.length + ((payloadSeg ⟨"a".data⟩ (some 60) 0).length + (0 + 1) + 1)) 'z') 0 ≠
        .ok c :=
  ⟨by decide, by decide,
    (claim_C4_single_char_flip ("k".data) ⟨"a".data⟩ (some 60) 0 0 0 0 'z' 'z'
      (by decide) (by decide) (by decide) (by decide)).2.2⟩

/-- C5 counterexample: a concrete token whose embedded expiry (4) is not
strictly after the decode time (5) but whose signature segment has been
altered fails with BadSignature, not with Expired — the error label depends
on the signature after all. -/
theorem claim_C5_cex :
    embeddedExp (create_access_token ("k".data) ⟨"a".data⟩ (some (-1)) 5 ++
      [Char.ofNat 48]) = some 4 ∧
    ((4 : Int) ≤ 5) ∧
    jwtDecode ("k".data) (create_access_token ("k".data) ⟨"a".data⟩ (some (-1)) 5 ++
      [Char.ofNat 48]) 5 ≠ .err .expired := by
  have he : create_access_token ("k".data) ⟨"a".data⟩ (some (-1)) 5 ++ [Char.ofNat 48] =
      headerB64 ++ '.' :: (payloadSeg ⟨"a".data⟩ (some (-1)) 5 ++ '.' ::
        (sigSeg ("k".data) ⟨"a".data⟩ (some (-1)) 5 ++ [Char.ofNat 48])) := by
    rw [create_access_token_eq]
    simp [List.append_assoc]
  have hsne : sigSeg ("k".data) ⟨"a".data⟩ (some (-1)) 5 ++ [Char.ofNat 48] ≠
      sigSeg ("k".data) ⟨"a".data⟩ (some (-1)) 5 := by
    intro hcon
    have hlen := congrArg List.length hcon
    simp at hlen
  have hsdf : ('.' : Char) ∉ sigSeg ("k".data) ⟨"a".data⟩ (some (-1)) 5 ++ [Char.ofNat 48] := by
    intro hmem
    rcases List.mem_append.mp hmem with hm | hm
    · exact sigSeg_dot_free _ _ _ _ hm
    · revert hm; decide
  have hsplit : splitOnChar '.' (create_access_token ("k".data) ⟨"a".data⟩ (some (-1)) 5 ++
      [Char.ofNat 48]) = [headerB64, payloadSeg ⟨"a".data⟩ (some (-1)) 5,
        sigSeg ("k".data) ⟨"a".data⟩ (some (-1)) 5 ++ [Char.ofNat 48]] := by
    rw [he]
    exact splitOnChar_token (payloadSeg_dot_free _ _ _) hsdf
  refine ⟨?_, by decide, ?_⟩
  · rw [embeddedExp_of_payload hsplit]
    decide
  · rw [he]
    rcases jwtDecode_tampered ("k".data) ⟨"a".data⟩ (some (-1)) 5 5
      (Or.inr ⟨rfl, hsne⟩) with h | h <;> rw [h] <;> decide

/-- C5 (amended): a token whose expiry is not strictly after the decode time
never decodes to claims; when its signature is valid — as for any issued
token — the failure is precisely Expired. -/
theorem claim_C5_expired_rejected (key : Str) (data : TokenData) (delta : Option Int)
    (now tnow : Int) (hexp : now + delta.getD (15 * 60) ≤ tnow) :
    jwtDecode key (create_access_token key data delta now) tnow = .err .expired ∧
    ∀ (t : Str) (c : Claims), jwtDecode key t tnow = .ok c → tnow < c.exp := by
  refine ⟨?_, fun t c h => jwtDecode_ok_exp h⟩
  rw [jwtDecode_create, if_pos hexp]

/-- Witness: a token issued with ttl -1 decodes as Expired at its own
issuance instant. -/
theorem claim_C5_expired_rejected_witness :
    ((5 : Int) + (some (-1) : Option Int).getD (15 * 60) ≤ 5) ∧
    jwtDecode ("k".data) (create_access_token ("k".data) ⟨"a".data⟩ (some (-1)) 5) 5 =
      .err .expired :=
  ⟨by decide,
    (claim_C5_expired_rejected ("k".data) ⟨"a".data⟩ (some (-1)) 5 5 (by decide)).1⟩

/-! ## Password hasher

Model of verify_password and get_password_hash from src/auth.py, which
delegate to passlib's CryptContext with the bcrypt scheme.  The digest is
self-describing: a dollar-delimited rendering of the salt followed by the
derived value, as bcrypt modular-crypt digests embed their salt.  The bcrypt
key derivation itself is an executable stand-in keeping the properties the
code relies on — determinism, and collision-freedom in salt and password
(which real bcrypt offers computationally).  The fresh random salt passlib
draws on each hash call is an explicit argument. -/

/-- Abstract model of the bcrypt key derivation for one salt and password. -/
def bcryptKdf (salt : Nat) (password : Str) : Str :=
  natToChars salt ++ '|' :: b64url password

/-- Model of get_password_hash from src/auth.py (pwd_context.hash): derive
with a fresh salt and return a digest embedding that salt. -/
def get_password_hash (salt : Nat) (password : Str) : Str :=
  '$' :: natToChars salt ++ '$' :: bcryptKdf salt password

/-- Model of verify_password from src/auth.py (pwd_context.verify):
re-derive using the digest's embedded salt and compare; false on any
mismatch or unparsable digest, never an exception. -/
def verify_password (plain digest : Str) : Bool :=
  match splitOnChar '$' digest with
  | [[], saltDs, stored] =>
    match natParse saltDs with
    | some salt => bcryptKdf salt plain == stored
    | none => false
  | _ => false

theorem dollar_not_mem_natToChars {n : Nat} : ('$' : Char) ∉ natToChars n := by
  intro h
  have := mem_natToChars_isDig h
  exact absurd this (by decide)

theorem dollar_not_mem_bcryptKdf (salt : Nat) (password : Str) :
    ('$' : Char) ∉ bcryptKdf salt password := by
  intro h
  rw [bcryptKdf, List.mem_append] at h
  rcases h with h | h
  · exact dollar_not_mem_natToChars h
  · rcases List.mem_cons.mp h with h | h
    · cases h
    · exact absurd (mem_b64url_isHex h) (by decide)

/-- Digests split into the empty leading chunk, the salt and the derived
value. -/
theorem splitOnChar_hash (salt : Nat) (password : Str) :
    splitOnChar '$' (get_password_hash salt password) =
      [[], natToChars salt, bcryptKdf salt password] := by
  rw [get_password_hash]
  have h1 : splitOnChar '$' (('$' : Char) ::
      (natToChars salt ++ '$' :: bcryptKdf salt password)) =
      [] :: splitOnChar '$' (natToChars salt ++ '$' :: bcryptKdf salt password) := by
    rw [splitOnChar, if_pos rfl]
  rw [List.cons_append, h1, splitOnChar_append dollar_not_mem_natToChars,
    splitOnChar_eq_single (dollar_not_mem_bcryptKdf salt password)]

/-- The derivation is collision-free in the password for a fixed salt. -/
theorem bcryptKdf_inj {salt : Nat} {p₁ p₂ : Str}
    (h : bcryptKdf salt p₁ = bcryptKdf salt p₂) : p₁ = p₂ := by
  rw [bcryptKdf, bcryptKdf] at h
  exact b64url_inj (List.tail_eq_of_cons_eq (List.append_cancel_left h))

/-- C1: a password verifies against its own hash under any salt; hashing the
same password twice with distinct fresh salts yields distinct digest
strings, both of which verify against the password. -/
theorem claim_C1_hash_verify (p : Str) (s₁ s₂ : Nat) :
    verify_password p (get_password_hash s₁ p) = true ∧
    verify_password p (get_password_hash s₂ p) = true ∧
    (s₁ ≠ s₂ → get_password_hash s₁ p ≠ get_password_hash s₂ p) := by
  have hver : ∀ s : Nat, verify_password p (get_password_hash s p) = true := by
    intro s
    rw [verify_password, splitOnChar_hash]
    show (match natParse (natToChars s) with
      | some salt => bcryptKdf salt p == bcryptKdf s p
      | none => false) = true
    rw [natParse_natToChars]
    show (bcryptKdf s p == bcryptKdf s p) = true
    exact beq_self_eq_true _
  refine ⟨hver s₁, hver s₂, fun hne hcon => hne ?_⟩
  rw [get_password_hash, get_password_hash] at hcon
  have h1 := List.tail_eq_of_cons_eq hcon
  obtain ⟨h2, -⟩ := append_sep_inj dollar_not_mem_natToChars dollar_not_mem_natToChars h1
  exact natToChars_inj h2

/-- Witness: concrete password hashed under two different salts. -/
theorem claim_C1_hash_verify_witness :
    verify_password ("pw".data) (get_password_hash 1 ("pw".data)) = true ∧
    verify_password ("pw".data) (get_password_hash 2 ("pw".data)) = true ∧
    get_password_hash 1 ("pw".data) ≠ get_password_hash 2 ("pw".data) :=
  ⟨(claim_C1_hash_verify ("pw".data) 1 2).1, (claim_C1_hash_verify ("pw".data) 1 2).2.1,
    (claim_C1_hash_verify ("pw".data) 1 2).2.2 (by decide)⟩

/-- C9: verifying one password against the hash of a different password
returns false; the verifier is a total boolean function, so a merely-wrong
password can never raise. -/
theorem claim_C9_wrong_password (salt : Nat) (p₁ p₂ : Str) (hne : p₁ ≠ p₂) :
    verify_password p₁ (get_password_hash salt p₂) = false := by
  rw [verify_password, splitOnChar_hash]
  show (match natParse (natToChars salt) with
    | some s => bcryptKdf s p₁ == bcryptKdf salt p₂
    | none => false) = false
  rw [natParse_natToChars]
  show (bcryptKdf salt p₁ == bcryptKdf salt p₂) = false
  rw [beq_eq_false_iff_ne]
  exact fun hcon => hne (bcryptKdf_inj hcon)

/-- Witness: a concrete wrong password fails verification. -/
theorem claim_C9_wrong_password_witness :
    ("a".data : Str) ≠ ("b".data : Str) ∧
    verify_password ("a".data) (get_password_hash 1 ("b".data)) = false :=
  ⟨by decide, claim_C9_wrong_password 1 ("a".data) ("b".data) (by decide)⟩

/-! ## Flat-file store and route logic

Model of the user, restaurant and review collections of
src/local_storage.py together with the src/main.py route logic that drives
them.  Each JSON file is an in-memory list of typed records; every helper
takes the current file contents and returns the new contents, mirroring the
read-modify-write cycle of the Python code. -/

/-- User record as src/main.py registers it in users.json. -/
structure StoredUser where
  id : Int
  username : Str
  email : Str
  hashed_password : Str
  is_verified : Int
  verification_token : Option Str
  deriving DecidableEq, Repr

/-- Restaurant record of restaurants.json. -/
structure RestaurantRec where
  id : Int
  name : Str
  deriving DecidableEq, Repr

/-- Review record of reviews.json. -/
structure ReviewRec where
  id : Int
  text : Str
  rating : Int
  restaurant_id : Int
  user_id : Int
  image_url : Option Str
  created_at : Str
  deriving DecidableEq, Repr

/-- Fresh id used by create_user, create_restaurant and create_review in
src/local_storage.py: one more than the maximum existing id, 1 for an empty
collection. -/
def newId (ids : List Int) : Int :=
  match ids with
  | [] => 1
  | x :: xs => xs.foldl max x + 1

/-- get_user_by_username from src/local_storage.py. -/
def get_user_by_username (username : Str) (users : List StoredUser) :
    Option StoredUser :=
  users.find? (fun u => u.username == username)

/-- get_user_by_email from src/local_storage.py. -/
def get_user_by_email (email : Str) (users : List StoredUser) : Option StoredUser :=
  users.find? (fun u => u.email == email)

/-- create_user from src/local_storage.py: assign the fresh id and append. -/
def create_user (user_data : StoredUser) (users : List StoredUser) :
    List StoredUser × StoredUser :=
  let u := { user_data with id := newId (users.map (fun v => v.id)) }
  (users ++ [u], u)

/-- create_restaurant from src/local_storage.py. -/
def create_restaurant (restaurant_data : RestaurantRec)
    (restaurants : List RestaurantRec) : List RestaurantRec × RestaurantRec :=
  let r := { restaurant_data with id := newId (restaurants.map (fun v => v.id)) }
  (restaurants ++ [r], r)

/-- create_review from src/local_storage.py; it also stamps created_at with
the current time, an explicit argument here. -/
def create_review (review_data : ReviewRec) (now_iso : Str)
    (reviews : List ReviewRec) : List ReviewRec × ReviewRec :=
  let r := { review_data with
      id := newId (reviews.map (fun v => v.id)), created_at := now_iso }
  (reviews ++ [r], r)

/-- update_user from src/local_storage.py: apply the field update to the
first record carrying the id, returning the new contents and the updated
record (none and unchanged contents when the id is absent).  The
dictionary-update argument of the Python code appears as the field
function `upd`. -/
def update_user (user_id : Int) (upd : StoredUser → StoredUser) :
    List StoredUser → List StoredUser × Option StoredUser
  | [] => ([], none)
  | u :: rest =>
    if u.id == user_id then (upd u :: rest, some (upd u))
    else
      let r := update_user user_id upd rest
      (u :: r.1, r.2)

/-- Field update verify_email in src/main.py passes to update_user:
is_verified set to 1 and verification_token cleared. -/
def markVerified (u : StoredUser) : StoredUser :=
  { u with is_verified := 1, verification_token := none }

/-- verify_email from src/main.py: find the first user carrying the token;
on a hit mark it verified through update_user and report success, otherwise
report the 404 invalid-token failure.  Returns the new contents and the
success flag. -/
def verify_email (token : Str) (users : List StoredUser) :
    List StoredUser × Bool :=
  match users.find? (fun u => u.verification_token == some token) with
  | some u => ((update_user u.id markVerified users).1, true)
  | none => (users, false)

/-- authenticate_user from src/main.py: none for an unknown username and
none for a failed password check — the same failure value in both cases. -/
def authenticate_user (username password : Str) (users : List StoredUser) :
    Option StoredUser :=
  match get_user_by_username username users with
  | none => none
  | some u => if verify_password password u.hashed_password then some u else none

/-- authenticate_user from src/auth.py, the database variant: a first-match
query by username, then the password check; the Python function returns
False in both failure cases, modelled as none. -/
def auth_authenticate_user (users : List StoredUser) (username password : Str) :
    Option StoredUser :=
  match users.find? (fun u => u.username == username) with
  | none => none
  | some u => if verify_password password u.hashed_password then some u else none

/-- register_user from src/main.py: reject a taken username or email,
otherwise create the user unverified and carrying the fresh verification
token.  The bcrypt salt and the generated token are explicit arguments
(passlib randomness and secrets.token_urlsafe). -/
def register_user (username email password : Str) (salt : Nat) (token : Str)
    (users : List StoredUser) : List StoredUser × Bool :=
  if (get_user_by_username username users).isSome then (users, false)
  else if (get_user_by_email email users).isSome then (users, false)
  else
    ((create_user ⟨0, username, email, get_password_hash salt password, 0, some token⟩
      users).1, true)

theorem foldl_max_bounds (x : Int) (xs : List Int) :
    x ≤ xs.foldl max x ∧ ∀ i ∈ xs, i ≤ xs.foldl max x := by
  induction xs generalizing x with
  | nil => simp
  | cons y ys ih =>
    rw [List.foldl_cons]
    refine ⟨le_trans (le_max_left x y) (ih (max x y)).1, ?_⟩
    intro i hi
    rcases List.mem_cons.mp hi with rfl | hi'
    · exact le_trans (le_max_right x i) (ih (max x i)).1
    · exact (ih (max x y)).2 i hi'

/-- The left fold of max is attained by one of its inputs. -/
theorem foldl_max_mem (x : Int) (xs : List Int) : xs.foldl max x ∈ x :: xs := by
  induction xs generalizing x with
  | nil => simp
  | cons y ys ih =>
    rw [List.foldl_cons]
    rcases List.mem_cons.mp (ih (max x y)) with h | h
    · rw [h]
      rcases max_choice x y with hm | hm <;> rw [hm] <;> simp
    · exact List.mem_cons_of_mem _ (List.mem_cons_of_mem _ h)

/-- Fresh ids exceed every existing id. -/
theorem newId_gt {ids : List Int} : ∀ i ∈ ids, i < newId ids := by
  intro i hi
  cases ids with
  | nil => cases hi
  | cons x xs =>
    rw [newId]
    rcases List.mem_cons.mp hi with rfl | hi'
    · have := (foldl_max_bounds i xs).1
      omega
    · have := (foldl_max_bounds x xs).2 i hi'
      omega

/-- On a nonempty collection, the fresh id is the attained maximum plus
one. -/
theorem newId_eq_max_add_one (x : Int) (xs : List Int) :
    ∃ m ∈ x :: xs, (∀ i ∈ x :: xs, i ≤ m) ∧ newId (x :: xs) = m + 1 := by
  refine ⟨xs.foldl max x, foldl_max_mem x xs, ?_, rfl⟩
  intro i hi
  rcases List.mem_cons.mp hi with rfl | hi'
  · exact (foldl_max_bounds i xs).1
  · exact (foldl_max_bounds x xs).2 i hi'

/-- Appending a record with the fresh id preserves distinctness of ids. -/
theorem nodup_append_newId {ids : List Int} (h : ids.Nodup) :
    (ids ++ [newId ids]).Nodup := by
  rw [List.nodup_append]
  refine ⟨h, List.nodup_singleton _, ?_⟩
  intro a ha hb
  rw [List.mem_singleton] at hb
  subst hb
  exact absurd ha (fun hmem => lt_irrefl _ (newId_gt _ hmem))

/-- C10: every create of the flat-file store assigns the new record an id of
maximum-existing-plus-one (1 on an empty collection), strictly greater than
every existing id, and therefore keeps pairwise-distinct ids distinct, for
create_user, create_restaurant and create_review alike. -/
theorem claim_C10_fresh_ids (users : List StoredUser) (ud : StoredUser)
    (restaurants : List RestaurantRec) (rd : RestaurantRec)
    (reviews : List ReviewRec) (vd : ReviewRec) (now_iso : Str) :
    ((users = [] → (create_user ud users).2.id = 1) ∧
      (users ≠ [] → ∃ m ∈ users.map (fun v => v.id),
        (∀ i ∈ users.map (fun v => v.id), i ≤ m) ∧ (create_user ud users).2.id = m + 1) ∧
      (∀ v ∈ users, v.id < (create_user ud users).2.id) ∧
      ((users.map (fun v => v.id)).Nodup →
        ((create_user ud users).1.map (fun v => v.id)).Nodup)) ∧
    ((restaurants = [] → (create_restaurant rd restaurants).2.id = 1) ∧
      (restaurants ≠ [] → ∃ m ∈ restaurants.map (fun v => v.id),
        (∀ i ∈ restaurants.map (fun v => v.id), i ≤ m) ∧
        (create_restaurant rd restaurants).2.id = m + 1) ∧
      (∀ v ∈ restaurants, v.id < (create_restaurant rd restaurants).2.id) ∧
      ((restaurants.map (fun v => v.id)).Nodup →
        ((create_restaurant rd restaurants).1.map (fun v => v.id)).Nodup)) ∧
    ((reviews = [] → (create_review vd now_iso reviews).2.id = 1) ∧
      (reviews ≠ [] → ∃ m ∈ reviews.map (fun v => v.id),
        (∀ i ∈ reviews.map (fun v => v.id), i ≤ m) ∧
        (create_review vd now_iso reviews).2.id = m + 1) ∧
      (∀ v ∈ reviews, v.id < (create_review vd now_iso reviews).2.id) ∧
      ((reviews.map (fun v => v.id)).Nodup →
        ((create_review vd now_iso reviews).1.map (fun v => v.id)).Nodup)) := by
  refine ⟨⟨fun he => by subst he; rfl, fun hne => ?_, fun v hv => ?_, fun hnd => ?_⟩,
    ⟨fun he => by subst he; rfl, fun hne => ?_, fun v hv => ?_, fun hnd => ?_⟩,
    ⟨fun he => by subst he; rfl, fun hne => ?_, fun v hv => ?_, fun hnd => ?_⟩⟩
  · rcases hmnil : users.map (fun v => v.id) with _ | ⟨x, xs⟩
    · exact absurd (List.map_eq_nil_iff.mp hmnil) hne
    · obtain ⟨m, hm, hle, heq⟩ := newId_eq_max_add_one x xs
      exact ⟨m, by rw [hmnil]; exact hm, fun i hi => hle i (by rwa [hmnil] at hi),
        by show newId (users.map (fun v => v.id)) = m + 1; rw [hmnil]; exact heq⟩
  · exact newId_gt _ (List.mem_map_of_mem _ hv)
  · have hmap : (create_user ud users).1.map (fun v => v.id) =
        users.map (fun v => v.id) ++ [newId (users.map (fun v => v.id))] := by
      simp [create_user]
    rw [hmap]
    exact nodup_append_newId hnd
  · rcases hmnil : restaurants.map (fun v => v.id) with _ | ⟨x, xs⟩
    · exact absurd (List.map_eq_nil_iff.mp hmnil) hne
    · obtain ⟨m, hm, hle, heq⟩ := newId_eq_max_add_one x xs
      exact ⟨m, by rw [hmnil]; exact hm, fun i hi => hle i (by rwa [hmnil] at hi),
        by show newId (restaurants.map (fun v => v.id)) = m + 1; rw [hmnil]; exact heq⟩
  · exact newId_gt _ (List.mem_map_of_mem _ hv)
  · have hmap : (create_restaurant rd restaurants).1.map (fun v => v.id) =
        restaurants.map (fun v => v.id) ++ [newId (restaurants.map (fun v => v.id))] := by
      simp [create_restaurant]
    rw [hmap]
    exact nodup_append_newId hnd
  · rcases hmnil : reviews.map (fun v => v.id) with _ | ⟨x, xs⟩
    · exact absurd (List.map_eq_nil_iff.mp hmnil) hne
    · obtain ⟨m, hm, hle, heq⟩ := newId_eq_max_add_one x xs
      exact ⟨m, by rw [hmnil]; exact hm, fun i hi => hle i (by rwa [hmnil] at hi),
        by show newId (reviews.map (fun v => v.id)) = m + 1; rw [hmnil]; exact heq⟩
  · exact newId_gt _ (List.mem_map_of_mem _ hv)
  · have hmap : (create_review vd now_iso reviews).1.map (fun v => v.id) =
        reviews.map (fun v => v.id) ++ [newId (reviews.map (fun v => v.id))] := by
      simp [create_review]
    rw [hmap]
    exact nodup_append_newId hnd

/-- Witness for the fresh-id theorem: an empty user store assigns id 1; a
store holding id 5 assigns an id above 5 and keeps ids distinct. -/
theorem claim_C10_fresh_ids_witness :
    ((create_user ⟨0, "u".data, "e".data, "h".data, 0, none⟩ []).2.id = 1) ∧
    (∀ v ∈ [(⟨5, "u".data, "e".data, "h".data, 0, none⟩ : StoredUser)],
      v.id < (create_user ⟨0, "u".data, "e".data, "h".data, 0, none⟩
        [⟨5, "u".data, "e".data, "h".data, 0, none⟩]).2.id) ∧
    ((create_user ⟨0, "u".data, "e".data, "h".data, 0, none⟩
        [⟨5, "u".data, "e".data, "h".data, 0, none⟩]).1.map (fun v => v.id)).Nodup :=
  ⟨(claim_C10_fresh_ids [] ⟨0, "u".data, "e".data, "h".data, 0, none⟩ [] ⟨0, "r".data⟩
      [] ⟨0, "t".data, 5, 1, 1, none, "c".data⟩ ("c".data)).1.1 rfl,
    (claim_C10_fresh_ids [⟨5, "u".data, "e".data, "h".data, 0, none⟩]
      ⟨0, "u".data, "e".data, "h".data, 0, none⟩ [] ⟨0, "r".data⟩
      [] ⟨0, "t".data, 5, 1, 1, none, "c".data⟩ ("c".data)).1.2.2.1,
    (claim_C10_fresh_ids [⟨5, "u".data, "e".data, "h".data, 0, none⟩]
      ⟨0, "u".data, "e".data, "h".data, 0, none⟩ [] ⟨0, "r".data⟩
      [] ⟨0, "t".data, 5, 1, 1, none, "c".data⟩ ("c".data)).1.2.2.2 (by decide)⟩

/-- C7: an unknown username and a known username with a failing password
check produce the same failure value, none, with no other observable
difference — in the flat-file variant of src/main.py and equally in the
database variant of src/auth.py (whose Python False is modelled as none). -/
theorem claim_C7_uniform_failure (users : List StoredUser) (username password : Str) :
    (get_user_by_username username users = none →
      authenticate_user username password users = none) ∧
    (∀ u, get_user_by_username username users = some u →
      verify_password password u.hashed_password = false →
      authenticate_user username password users = none) ∧
    (users.find? (fun u => u.username == username) = none →
      auth_authenticate_user users username password = none) ∧
    (∀ u, users.find? (fun u => u.username == username) = some u →
      verify_password password u.hashed_password = false →
      auth_authenticate_user users username password = none) := by
  refine ⟨fun h => ?_, fun u h hv => ?_, fun h => ?_, fun u h hv => ?_⟩
  · rw [authenticate_user, h]
  · rw [authenticate_user, h]
    show (if verify_password password u.hashed_password = true then some u else none) = none
    rw [if_neg (by simp [hv])]
  · rw [auth_authenticate_user, h]
  · rw [auth_authenticate_user, h]
    show (if verify_password password u.hashed_password = true then some u else none) = none
    rw [if_neg (by simp [hv])]

/-- Witness: one stored user "alice"; an unknown subject and a wrong
password both authenticate to none in both variants. -/
theorem claim_C7_uniform_failure_witness :
    authenticate_user ("nobody".data) ("anything".data)
      [⟨1, "alice".data, "e".data, get_password_hash 1 ("pw".data), 0, none⟩] = none ∧
    authenticate_user ("alice".data) ("wrong".data)
      [⟨1, "alice".data, "e".data, get_password_hash 1 ("pw".data), 0, none⟩] = none ∧
    auth_authenticate_user
      [⟨1, "alice".data, "e".data, get_password_hash 1 ("pw".data), 0, none⟩]
      ("nobody".data) ("anything".data) = none ∧
    auth_authenticate_user
      [⟨1, "alice".data, "e".data, get_password_hash 1 ("pw".data), 0, none⟩]
      ("alice".data) ("wrong".data) = none :=
  ⟨(claim_C7_uniform_failure
      [⟨1, "alice".data, "e".data, get_password_hash 1 ("pw".data), 0, none⟩]
      ("nobody".data) ("anything".data)).1 (by decide),
    (claim_C7_uniform_failure
      [⟨1, "alice".data, "e".data, get_password_hash 1 ("pw".data), 0, none⟩]
      ("alice".data) ("wrong".data)).2.1
      ⟨1, "alice".data, "e".data, get_password_hash 1 ("pw".data), 0, none⟩
      (by decide) (by decide),
    (claim_C7_uniform_failure
      [⟨1, "alice".data, "e".data, get_password_hash 1 ("pw".data), 0, none⟩]
      ("nobody".data) ("anything".data)).2.2.1 (by decide),
    (claim_C7_uniform_failure
      [⟨1, "alice".data, "e".data, get_password_hash 1 ("pw".data), 0, none⟩]
      ("alice".data) ("wrong".data)).2.2.2
      ⟨1, "alice".data, "e".data, get_password_hash 1 ("pw".data), 0, none⟩
      (by decide) (by decide)⟩

/-- Ids are untouched by update_user when the field update preserves them. -/
theorem update_user_map_id (uid : Int) (upd : StoredUser → StoredUser)
    (hupd : ∀ u, (upd u).id = u.id) :
    ∀ users : List StoredUser,
      ((update_user uid upd users).1).map (fun v => v.id) =
        users.map (fun v => v.id)
  | [] => rfl
  | u :: rest => by
    rw [update_user]
    by_cases h : (u.id == uid) = true
    · rw [if_pos h]
      simp [hupd]
    · rw [if_neg h]
      dsimp only
      rw [List.map_cons, List.map_cons, update_user_map_id uid upd hupd rest]

/-- Every record of an updated store is an old record or the update of an
old record. -/
theorem mem_update_user {uid : Int} {upd : StoredUser → StoredUser} :
    ∀ {users : List StoredUser} {v : StoredUser},
      v ∈ (update_user uid upd users).1 → v ∈ users ∨ ∃ w ∈ users, v = upd w := by
  intro users
  induction users with
  | nil => intro v hv; exact absurd hv (List.not_mem_nil v)
  | cons u rest ih =>
    intro v hv
    rw [update_user] at hv
    by_cases h : (u.id == uid) = true
    · rw [if_pos h] at hv
      rcases List.mem_cons.mp hv with rfl | hv'
      · exact Or.inr ⟨u, List.mem_cons_self u rest, rfl⟩
      · exact Or.inl (List.mem_cons_of_mem u hv')
    · rw [if_neg h] at hv
      dsimp only at hv
      rcases List.mem_cons.mp hv with rfl | hv'
      · exact Or.inl (List.mem_cons_self _ _)
      · rcases ih hv' with h' | ⟨w, hw, he⟩
        · exact Or.inl (List.mem_cons_of_mem u h')
        · exact Or.inr ⟨w, List.mem_cons_of_mem u hw, he⟩

/-- With pairwise-distinct ids, update_user rewrites exactly the records
carrying the id. -/
theorem update_user_eq_map (uid : Int) (upd : StoredUser → StoredUser) :
    ∀ {users : List StoredUser}, (users.map (fun v => v.id)).Nodup →
      (update_user uid upd users).1 =
        users.map (fun v => if v.id = uid then upd v else v) := by
  intro users
  induction users with
  | nil => intro _; rfl
  | cons u rest ih =>
    intro hnd
    rw [List.map_cons, List.nodup_cons] at hnd
    obtain ⟨hnotin, hnd2⟩ := hnd
    rw [update_user, List.map_cons]
    by_cases h : (u.id == uid) = true
    · have huid : u.id = uid := by simpa using h
      rw [if_pos h, if_pos huid]
      have hrest : rest.map (fun v => if v.id = uid then upd v else v) =
          rest.map (fun v => v) := by
        apply List.map_congr_left
        intro v hv
        rw [if_neg]
        intro hc
        exact hnotin (huid ▸ hc ▸ List.mem_map_of_mem (fun w => w.id) hv)
      rw [hrest, List.map_id']
    · have huid : ¬u.id = uid := by simpa using h
      rw [if_neg h, if_neg huid]
      dsimp only
      rw [ih hnd2]

/-- Distinct ids identify records. -/
theorem id_inj_of_nodup {users : List StoredUser}
    (h : (users.map (fun v => v.id)).Nodup) {a b : StoredUser}
    (ha : a ∈ users) (hb : b ∈ users) (hid : a.id = b.id) : a = b :=
  List.inj_on_of_nodup_map h ha hb hid

/-- C6 counterexample: with one user holding verification token "t", the
first consume succeeds, but the second consume of the same token reports the
404 invalid-token failure rather than an idempotent success. -/
theorem claim_C6_cex :
    (verify_email ("t".data)
      [⟨1, "a".data, "e".data, "h".data, 0, some ("t".data)⟩]).2 = true ∧
    (verify_email ("t".data) (verify_email ("t".data)
      [⟨1, "a".data, "e".data, "h".data, 0, some ("t".data)⟩]).1).2 = false :=
  ⟨by decide, by decide⟩

/-- C6 (amended): once a token has been consumed and its record verified, a
second consume of the same token is not an idempotent success: it returns
the 404 invalid-token failure, while indeed leaving the store state
unchanged. -/
theorem claim_C6_second_consume (users : List StoredUser) (t : Str) (u : StoredUser)
    (hfind : users.find? (fun v => v.verification_token == some t) = some u)
    (hnodup : (users.map (fun v => v.id)).Nodup)
    (huniq : ∀ v ∈ users, v.verification_token = some t → v = u) :
    (verify_email t users).2 = true ∧
    verify_email t (verify_email t users).1 = ((verify_email t users).1, false) := by
  have h1 : verify_email t users = ((update_user u.id markVerified users).1, true) := by
    rw [verify_email, hfind]
  have hmap := update_user_eq_map u.id markVerified hnodup
  have hnone : ((update_user u.id markVerified users).1).find?
      (fun v => v.verification_token == some t) = none := by
    rw [List.find?_eq_none]
    intro x hx
    rw [hmap] at hx
    rcases List.mem_map.mp hx with ⟨v, hv, rfl⟩
    by_cases hc : v.id = u.id
    · rw [if_pos hc]
      simp [markVerified]
    · rw [if_neg hc]
      intro hbeq
      have hvt : v.verification_token = some t := by simpa using hbeq
      exact hc (congrArg (fun w => w.id) (huniq v hv hvt))
  refine ⟨by rw [h1], ?_⟩
  rw [h1]
  show verify_email t (update_user u.id markVerified users).1 = _
  rw [verify_email, hnone]

/-- Witness: concrete single-user store; the second consume fails and
changes nothing. -/
theorem claim_C6_second_consume_witness :
    (verify_email ("t".data)
      [⟨1, "a".data, "e".data, "h".data, 0, some ("t".data)⟩]).2 = true ∧
    verify_email ("t".data) (verify_email ("t".data)
        [⟨1, "a".data, "e".data, "h".data, 0, some ("t".data)⟩]).1 =
      ((verify_email ("t".data)
        [⟨1, "a".data, "e".data, "h".data, 0, some ("t".data)⟩]).1, false) :=
  claim_C6_second_consume [⟨1, "a".data, "e".data, "h".data, 0, some ("t".data)⟩]
    ("t".data) ⟨1, "a".data, "e".data, "h".data, 0, some ("t".data)⟩
    (by decide) (by decide) (by decide)

/-- One step of the src/main.py operations that touch users.json:
registration (the only writer creating user records) and verification-token
consumption (the only caller of update_user). -/
inductive UserStep : List StoredUser → List StoredUser → Prop
  | register (username email password : Str) (salt : Nat) (token : Str)
      (users : List StoredUser) :
      UserStep users (register_user username email password salt token users).1
  | verify (token : Str) (users : List StoredUser) :
      UserStep users (verify_email token users).1

/-- Store states reachable from the empty users.json that init_data_files
writes. -/
def Reachable (users : List StoredUser) : Prop :=
  Relation.ReflTransGen UserStep [] users

/-- Store invariant: verified records carry no verification token, and ids
are pairwise distinct. -/
def StoreInv (users : List StoredUser) : Prop :=
  (∀ u ∈ users, u.is_verified ≠ 0 → u.verification_token = none) ∧
  (users.map (fun v => v.id)).Nodup

theorem storeInv_register (username email password : Str) (salt : Nat) (token : Str)
    {users : List StoredUser} (hinv : StoreInv users) :
    StoreInv (register_user username email password salt token users).1 := by
  rw [register_user]
  by_cases h1 : (get_user_by_username username users).isSome
  · rw [if_pos h1]
    exact hinv
  · rw [if_neg h1]
    by_cases h2 : (get_user_by_email email users).isSome
    · rw [if_pos h2]
      exact hinv
    · rw [if_neg h2]
      constructor
      · intro u hu hver
        rcases List.mem_append.mp hu with h | h
        · exact hinv.1 u h hver
        · rw [List.mem_singleton] at h
          subst h
          exact absurd rfl hver
      · have hmap : ((create_user
            ⟨0, username, email, get_password_hash salt password, 0, some token⟩
            users).1).map (fun v => v.id) =
            users.map (fun v => v.id) ++ [newId (users.map (fun v => v.id))] := by
          simp [create_user]
        show ((create_user _ users).1.map (fun v => v.id)).Nodup
        rw [hmap]
        exact nodup_append_newId hinv.2

theorem storeInv_verify (token : Str) {users : List StoredUser}
    (hinv : StoreInv users) : StoreInv (verify_email token users).1 := by
  rw [verify_email]
  split
  · constructor
    · intro v hv hver
      rcases mem_update_user hv with h | ⟨w, hw, rfl⟩
      · exact hinv.1 v h hver
      · rfl
    · rename_i u _
      show (((update_user u.id markVerified users).1).map (fun v => v.id)).Nodup
      rw [update_user_map_id u.id markVerified (fun v => rfl) users]
      exact hinv.2
  · exact hinv

theorem storeInv_step {users users' : List StoredUser} (h : UserStep users users')
    (hinv : StoreInv users) : StoreInv users' := by
  cases h with
  | register username email password salt token users =>
    exact storeInv_register username email password salt token hinv
  | verify token users => exact storeInv_verify token hinv

/-- The invariant holds in every reachable state. -/
theorem storeInv_reachable {users : List StoredUser} (h : Reachable users) :
    StoreInv users := by
  induction h with
  | refl => exact ⟨fun u hu => absurd hu (List.not_mem_nil u), List.nodup_nil⟩
  | tail hab hbc ih => exact storeInv_step hbc ih

/-- Across one further operation, any record carrying the id of a verified
record is still verified with its token erased. -/
theorem verified_terminal_step {users users' : List StoredUser}
    (hinv : StoreInv users) (hstep : UserStep users users') :
    ∀ u ∈ users, u.is_verified ≠ 0 → ∀ u' ∈ users', u'.id = u.id →
      u'.is_verified ≠ 0 ∧ u'.verification_token = none := by
  intro u hu hver u' hu' hid
  have hsame : u' ∈ users → u'.is_verified ≠ 0 ∧ u'.verification_token = none := by
    intro hmem
    have he : u' = u := id_inj_of_nodup hinv.2 hmem hu hid
    subst he
    exact ⟨hver, hinv.1 u' hmem hver⟩
  cases hstep with
  | register username email password salt token users0 =>
    rw [register_user] at hu'
    by_cases h1 : (get_user_by_username username users).isSome
    · rw [if_pos h1] at hu'
      exact hsame hu'
    · rw [if_neg h1] at hu'
      by_cases h2 : (get_user_by_email email users).isSome
      · rw [if_pos h2] at hu'
        exact hsame hu'
      · rw [if_neg h2] at hu'
        rcases List.mem_append.mp hu' with h | h
        · exact hsame h
        · rw [List.mem_singleton] at h
          have hgt : u.id < newId (users.map (fun v => v.id)) :=
            newId_gt _ (List.mem_map_of_mem (fun v => v.id) hu)
          have hnew : u'.id = newId (users.map (fun v => v.id)) := by rw [h]
          rw [hid] at hnew
          omega
  | verify token users0 =>
    rw [verify_email] at hu'
    split at hu'
    · rename_i w hf
      have hmap := update_user_eq_map w.id markVerified hinv.2
      rw [hmap] at hu'
      rcases List.mem_map.mp hu' with ⟨v, hv, rfl⟩
      by_cases hc : v.id = w.id
      · rw [if_pos hc] at hid ⊢
        have hvid : v.id = u.id := hid
        have he : v = u := id_inj_of_nodup hinv.2 hv hu hvid
        subst he
        exact ⟨by simp [markVerified], rfl⟩
      · rw [if_neg hc] at hid hsame ⊢
        exact hsame hv
    · exact hsame hu' 

/-- C8: in every reachable user-store state, a record whose verified flag is
set has its verification token erased; and across any further operation, a
record carrying the id of a previously verified record is still verified
with its token still erased — Verified is terminal. -/
theorem claim_C8_verified_terminal (users users' : List StoredUser)
    (hr : Reachable users) (hstep : UserStep users users') :
    (∀ u ∈ users, u.is_verified ≠ 0 → u.verification_token = none) ∧
    (∀ u ∈ users, u.is_verified ≠ 0 → ∀ u' ∈ users', u'.id = u.id →
      u'.is_verified ≠ 0 ∧ u'.verification_token = none) :=
  ⟨(storeInv_reachable hr).1, verified_terminal_step (storeInv_reachable hr) hstep⟩

/-- Witness: one registration from the empty store, followed by the
consumption of its verification token. -/
theorem claim_C8_verified_terminal_witness :
    (∀ u ∈ (register_user ("a".data) ("e".data) ("p".data) 1 ("t".data) []).1,
      u.is_verified ≠ 0 → u.verification_token = none) ∧
    (∀ u ∈ (register_user ("a".data) ("e".data) ("p".data) 1 ("t".data) []).1,
      u.is_verified ≠ 0 →
      ∀ u' ∈ (verify_email ("t".data)
        (register_user ("a".data) ("e".data) ("p".data) 1 ("t".data) []).1).1,
        u'.id = u.id → u'.is_verified ≠ 0 ∧ u'.verification_token = none) :=
  claim_C8_verified_terminal
    (register_user ("a".data) ("e".data) ("p".data) 1 ("t".data) []).1
    (verify_email ("t".data)
      (register_user ("a".data) ("e".data) ("p".data) 1 ("t".data) []).1).1
    (Relation.ReflTransGen.single
      (UserStep.register ("a".data) ("e".data) ("p".data) 1 ("t".data) []))
    (UserStep.verify ("t".data)
      (register_user ("a".data) ("e".data) ("p".data) 1 ("t".data) []).1)

end FastApiApp
